import Mathlib

/-!
Verification of CryptoCortex: shallow embedding of the frontend trading
widgets and of the trade-execution ledger pipeline, with theorems checking
the natural-language specification against them.

Frontend definitions are translated from the React sources
(`BuySellTransferWidget`, `BuySellTransferPage`, `CryptoCandlesChart`,
`CryptoListPage`).  The backend worker and ledger code is not part of the
checked-in sources, so the ledger operations are modelled from the spec
(each such definition says so in its doc comment).
-/

namespace CryptoCortex

/-! ## Frontend: moving average (CryptoCandlesChart.jsx) -/

/-- Translation of `calculateMA` from `CryptoCandlesChart.jsx`:
`data.map((_, i, arr) => { if (i < period - 1) return null;
 const slice = arr.slice(i - period + 1, i + 1);
 return slice.reduce((sum, val) => sum + val, 0) / period; })`.
Numbers are embedded as rationals; `none` stands for JS `null`.
For `period >= 1` the guard `i < period - 1` and the slice bounds agree with
the JS semantics (both indices are then nonnegative). -/
def calculateMA (data : List ℚ) (period : ℕ) : List (Option ℚ) :=
  (List.range data.length).map (fun i =>
    if i < period - 1 then none
    else some (((data.drop (i + 1 - period)).take (period)).sum / (period : ℚ)))

/-! ## Frontend: pagination (CryptoListPage, src/unnamed/part_004) -/

/-- Translation of `const totalPages = Math.ceil(total / pageSize)` with
`pageSize = 10` from `CryptoListPage`; ceiling division on naturals. -/
def totalPages (total : ℕ) : ℕ := (total + 9) / 10

/-- Translation of the Previous button: `onClick={() => setPage(page - 1)}`
with `disabled={page === 1}` — a click is a no-op exactly when disabled. -/
def clickPrev (page : ℕ) : ℕ := if page = 1 then page else page - 1

/-- Translation of the Next button: `onClick={() => setPage(page + 1)}`
with `disabled={page === totalPages}`. -/
def clickNext (tp : ℕ) (page : ℕ) : ℕ := if page = tp then page else page + 1

/-- A pagination click is either Previous or Next. -/
inductive Click where
  | prev : Click
  | next : Click
deriving DecidableEq, Repr

/-- Effect of one click on the page state, for a fixed `totalPages` value. -/
def applyClick (tp : ℕ) (page : ℕ) : Click → ℕ
  | Click.prev => clickPrev page
  | Click.next => clickNext tp page

/-- Folding a sequence of clicks over the page state. -/
def runClicks (tp : ℕ) (page : ℕ) (cs : List Click) : ℕ :=
  cs.foldl (applyClick tp) page

/-! ## Frontend: trade submission (`handleTrade`, src/unnamed/part_002 and
part_003) -/

/-- Value of a list of decimal digit characters, most significant first. -/
def digitsVal (cs : List Char) : ℕ :=
  cs.foldl (fun a c => 10 * a + (c.toNat - 48)) 0

/-- Model of JavaScript `parseFloat` on the strings a numeric input field
produces: optional sign, integer digits, optional decimal point and
fraction digits; any trailing characters are ignored, as `parseFloat`
ignores trailing garbage.  Returns `none` for `NaN` (no digits at all). -/
def jsParseFloat (s : String) : Option ℚ :=
  let cs := s.toList.dropWhile (fun c => c = ' ')
  let (neg, rest) :=
    match cs with
    | '-' :: t => (true, t)
    | '+' :: t => (false, t)
    | _ => (false, cs)
  let ip := rest.takeWhile Char.isDigit
  let rest1 := rest.dropWhile Char.isDigit
  let fp :=
    match rest1 with
    | '.' :: t => t.takeWhile Char.isDigit
    | _ => []
  if ip = [] ∧ fp = [] then none
  else
    let n : ℤ := ((digitsVal ip * 10 ^ fp.length + digitsVal fp : ℕ) : ℤ)
    some (mkRat (if neg then -n else n) (10 ^ fp.length))

/-- Model of JS `String.prototype.toUpperCase()` on the ASCII strings the
widget uses ("buy", "sell"): uppercase each character. -/
def jsToUpperCase (s : String) : String := String.mk (s.data.map Char.toUpper)

/-- The JSON body `handleTrade` posts to `/trade`:
`{ user_id, symbol, side: side.toUpperCase(), order_type: orderType,
   quantity: parseFloat(amount), ...(orderType === "LIMIT" && { price:
   parseFloat(price) }) }`.  `quantity = none` stands for JS `NaN`. -/
structure TradePayload where
  user_id : String
  symbol : String
  side : String
  order_type : String
  quantity : Option ℚ
  price : Option ℚ
deriving DecidableEq, Repr

/-- Field names of the object literal built in `handleTrade`
(src/unnamed/part_002 lines 46-53): `price` is present exactly when
`orderType === "LIMIT"`; there is no other field. -/
def tradePayloadKeys (orderType : String) : List String :=
  ["user_id", "symbol", "side", "order_type", "quantity"] ++
    (if orderType = "LIMIT" then ["price"] else [])

/-- Translation of `handleTrade` from `BuySellTransferWidget`
(src/unnamed/part_002 lines 27-57).  `tokenPresent` models
`localStorage.getItem("access_token")` being non-null, `userId` the result
of `getUserIdFromToken()`.  JS string falsiness: a controlled text input's
value is falsy exactly when it is the empty string.  The result is the
posted payload, or `none` when no HTTP request is issued. -/
def handleTrade (tokenPresent : Bool) (userId : Option String)
    (orderType symbol side : String) (amount priceStr : String) :
    Option TradePayload :=
  match userId with
  | none => none
  | some uid =>
      if tokenPresent = false then none
      else if amount = "" ∨ (orderType = "LIMIT" ∧ priceStr = "") then none
      else some
        { user_id := uid
          symbol := symbol
          side := jsToUpperCase side
          order_type := orderType
          quantity := jsParseFloat amount
          price := if orderType = "LIMIT" then jsParseFloat priceStr else none }

/-! ## Backend ledger model

The Celery worker and the MongoDB ledger code are not among the checked-in
sources (only the frontend, a startup script and the design/testing
documents are), so the following definitions are modelled from the spec,
sections 3, 4.4 and 4.5.  Monetary and quantity fields use exact rational
arithmetic, matching the spec's fixed-point-decimal requirement. -/

namespace Ledger

/-- Modelled from the spec: `PortfolioEntry` for one `(user_id, symbol)`
pair — `{quantity, avg_buy_price, cost_basis_numerator}` (spec section 3);
the worker code holding it is missing from the sources. -/
structure PortfolioEntry where
  quantity : ℚ
  cost_basis_numerator : ℚ
  avg_buy_price : ℚ
deriving DecidableEq, Repr

/-- Modelled from the spec: the atomic BUY mutation of a PortfolioEntry
(spec section 4.4) — increment `quantity` by `q`, increment
`cost_basis_numerator` by `q*price`, recompute
`avg_buy_price = cost_basis_numerator / quantity` in the same operation;
insert-on-first-write with `quantity = q, avg_buy_price = price` when the
entry is absent.  The worker code performing it is missing from the
sources. -/
def buyFill (q price : ℚ) : Option PortfolioEntry → PortfolioEntry
  | none => ⟨q, q * price, price⟩
  | some e =>
      let qty := e.quantity + q
      let num := e.cost_basis_numerator + q * price
      ⟨qty, num, num / qty⟩

/-- Modelled from the spec: the PortfolioEntry part of a SELL that passed
its `quantity ≥ q` condition (spec section 4.4) — decrement `quantity` by
`q`, leave `avg_buy_price` and `cost_basis_numerator` unchanged, delete the
entry when the quantity reaches exactly 0.  The worker code performing it
is missing from the sources. -/
def sellFill (q : ℚ) (e : PortfolioEntry) : Option PortfolioEntry :=
  if e.quantity - q = 0 then none
  else some ⟨e.quantity - q, e.cost_basis_numerator, e.avg_buy_price⟩

/-- Modelled from the spec: the `type` discriminator of a CreditsHistory
record (spec section 3). -/
inductive HType where
  | deposit : HType
  | withdraw : HType
  | tradeDebit : HType
  | tradeCredit : HType
deriving DecidableEq, Repr

/-- Modelled from the spec: one append-only CreditsHistory record —
`{type, amount, balance_after}` (spec section 3); id, user and order
reference fields play no role in the claims and are omitted. -/
structure HRec where
  htype : HType
  amount : ℚ
  balance_after : ℚ
deriving DecidableEq, Repr

/-- Modelled from the spec: the per-user ledger state the worker mutates —
the optional PortfolioEntry for the traded symbol, the CreditsAccount
balance, and the append-only CreditsHistory. -/
structure LState where
  portfolio : Option PortfolioEntry
  balance : ℚ
  history : List HRec
deriving DecidableEq, Repr

/-- Initial ledger state: no portfolio entry, starting balance, empty
history. -/
def initState (b : ℚ) : LState := ⟨none, b, []⟩

/-- Modelled from the spec: the ledger operations of sections 3 and 4.4 —
BUY and SELL fills (with price and fee already resolved by the worker) and
credit deposits/withdrawals. -/
inductive Op where
  | buy (q price fee : ℚ) : Op
  | sell (q price fee : ℚ) : Op
  | deposit (a : ℚ) : Op
  | withdraw (a : ℚ) : Op
deriving DecidableEq, Repr

/-- Modelled from the spec: one atomic ledger step (spec sections 4.4 and
4.5); the worker code performing it is missing from the sources.
BUY decrements the balance by `q*price + fee` conditioned on
`balance ≥ q*price + fee` and applies `buyFill`; on condition failure the
whole step fails with no mutation (`false` = rejected).  SELL decrements
the portfolio conditioned on `quantity ≥ q` and credits `q*price - fee`.
WITHDRAW is conditioned on `balance ≥ a` (the balance is never permitted
to go negative).  Every successful step appends the CreditsHistory record
whose `balance_after` is the balance observed immediately after the
mutation. -/
def applyOp (st : LState) : Op → LState × Bool
  | Op.buy q price fee =>
      let cost := q * price + fee
      if cost ≤ st.balance then
        let b := st.balance - cost
        (⟨some (buyFill q price st.portfolio), b,
          st.history ++ [⟨HType.tradeDebit, cost, b⟩]⟩, true)
      else (st, false)
  | Op.sell q price fee =>
      match st.portfolio with
      | none => (st, false)
      | some e =>
          if q ≤ e.quantity then
            let proceeds := q * price - fee
            let b := st.balance + proceeds
            (⟨sellFill q e, b,
              st.history ++ [⟨HType.tradeCredit, proceeds, b⟩]⟩, true)
          else (st, false)
  | Op.deposit a =>
      let b := st.balance + a
      (⟨st.portfolio, b, st.history ++ [⟨HType.deposit, a, b⟩]⟩, true)
  | Op.withdraw a =>
      if a ≤ st.balance then
        let b := st.balance - a
        (⟨st.portfolio, b, st.history ++ [⟨HType.withdraw, a, b⟩]⟩, true)
      else (st, false)

/-- Running a sequence of ledger operations, keeping only the state. -/
def run (st : LState) (ops : List Op) : LState :=
  ops.foldl (fun s o => (applyOp s o).1) st

/-- Well-formed operation arguments, as the spec's validation layer and fee
schedule guarantee them: trade quantities are strictly positive, prices
are nonnegative, fees are nonnegative and — being a rate applied to the
trade total (spec section 4.3) — do not exceed `q*price`; deposited
amounts are nonnegative. -/
def WfOp : Op → Prop
  | Op.buy q price fee => 0 < q ∧ 0 ≤ price ∧ 0 ≤ fee ∧ fee ≤ q * price
  | Op.sell q price fee => 0 < q ∧ 0 ≤ price ∧ 0 ≤ fee ∧ fee ≤ q * price
  | Op.deposit a => 0 ≤ a
  | Op.withdraw a => 0 ≤ a

/-- Modelled from the spec: the balance delta a CreditsHistory record
denotes on replay — deposits and trade credits add `amount`, withdrawals
and trade debits subtract it. -/
def applyRec (b : ℚ) (r : HRec) : ℚ :=
  match r.htype with
  | HType.deposit => b + r.amount
  | HType.withdraw => b - r.amount
  | HType.tradeDebit => b - r.amount
  | HType.tradeCredit => b + r.amount

/-- Total quantity of a list of `(quantity, price)` BUY fills. -/
def sumQ (l : List (ℚ × ℚ)) : ℚ := (l.map Prod.fst).sum

/-- Total cost `Σ qᵢ·priceᵢ` of a list of `(quantity, price)` BUY fills. -/
def sumQP (l : List (ℚ × ℚ)) : ℚ := (l.map (fun x => x.1 * x.2)).sum

/-- Applying a sequence of `(quantity, price)` BUY fills to a portfolio
entry, in order. -/
def applyBuys (l : List (ℚ × ℚ)) (s : Option PortfolioEntry) :
    Option PortfolioEntry :=
  l.foldl (fun acc qp => some (buyFill qp.1 qp.2 acc)) s

/-- Replaying a CreditsHistory in order from an initial balance, checking
each record's `balance_after` against the replayed balance; returns the
final balance, or `none` as soon as one record's `balance_after` differs
from the recomputed balance. -/
def replayCheck (b : ℚ) : List HRec → Option ℚ
  | [] => some b
  | r :: rs =>
      let b' := applyRec b r
      if r.balance_after = b' then replayCheck b' rs else none

end Ledger

/-! ## Backend worker with idempotency guard

Modelled from the spec, section 4.1 (Idempotency Guard), 4.3 (Trade Worker
Pool) and 4.5 (Audit Trail Writer); the worker code is missing from the
sources. -/

namespace Worker

/-- Association lookup on a guard table keyed by idempotency key. -/
def lookupKey (k : String) : List (String × Bool) → Option Bool
  | [] => none
  | p :: ps => if p.1 = k then some p.2 else lookupKey k ps

/-- Modelled from the spec: the worker-visible system state — the
idempotency-guard table mapping each registered key to the stored terminal
result (`true` = FILLED), the keys of Orders created so far, the order
keys of appended Transactions and CreditsHistory audit records, and the
per-user ledger. -/
structure WState where
  completed : List (String × Bool)
  orderKeys : List String
  txKeys : List String
  histKeys : List String
  ledger : Ledger.LState
deriving DecidableEq, Repr

/-- Modelled from the spec: `process(tradeRequest)` of section 4.3.  The
Idempotency Guard is consulted first: if the key is already registered the
stored result is returned with no re-execution and no ledger mutation.
Otherwise the guard registers the key, one Order is created, the ledger
mutation of section 4.4 runs, and — exactly when the order is FILLED — one
Transaction and one CreditsHistory audit record keyed by the order are
appended (section 4.5). -/
def process (key : String) (op : Ledger.Op) (st : WState) : WState × Bool :=
  match lookupKey key st.completed with
  | some r => (st, r)
  | none =>
      let res := Ledger.applyOp st.ledger op
      (⟨(key, res.2) :: st.completed,
        key :: st.orderKeys,
        if res.2 then key :: st.txKeys else st.txKeys,
        if res.2 then key :: st.histKeys else st.histKeys,
        res.1⟩, res.2)

/-- Submitting the same request `n` times in a row (at-least-once
delivery of one TradeRequest), keeping only the state. -/
def submitN (key : String) (op : Ledger.Op) : ℕ → WState → WState
  | 0, st => st
  | n + 1, st => submitN key op n (process key op st).1

/-- A key is fresh when the guard table, the Orders and the audit records
know nothing about it. -/
def FreshKey (key : String) (st : WState) : Prop :=
  lookupKey key st.completed = none ∧
    key ∉ st.orderKeys ∧ key ∉ st.txKeys ∧ key ∉ st.histKeys

end Worker

/-! ## Theorems -/

/-- Helper: a single pagination click preserves `1 ≤ page ≤ tp`, and so
does any sequence of clicks. -/
theorem runClicks_bounds : ∀ (cs : List Click) (tp page : ℕ),
    1 ≤ page → page ≤ tp →
    1 ≤ runClicks tp page cs ∧ runClicks tp page cs ≤ tp := by
  intro cs
  induction cs with
  | nil =>
      intro tp page h1 h2
      simpa [runClicks] using ⟨h1, h2⟩
  | cons c cs ih =>
      intro tp page h1 h2
      have hstep : 1 ≤ applyClick tp page c ∧ applyClick tp page c ≤ tp := by
        cases c <;> simp [applyClick, clickPrev, clickNext] <;>
          split_ifs <;> omega
      have h := ih tp (applyClick tp page c) hstep.1 hstep.2
      simpa [runClicks] using h

/-- C10: in the crypto list page, `totalPages` is the ceiling of
`total / 10` (page size 10): it is the least number of pages whose capacity
`10 * totalPages` covers `total`.  With Previous disabled exactly at
`page = 1` and Next exactly at `page = totalPages`, every sequence of
Previous/Next clicks keeps `1 ≤ page ≤ totalPages` whenever `total > 0`. -/
theorem pagination_invariant (total page : ℕ) (cs : List Click)
    (ht : 0 < total) (h1 : 1 ≤ page) (h2 : page ≤ totalPages total) :
    (total ≤ 10 * totalPages total ∧ 10 * totalPages total < total + 10) ∧
    1 ≤ runClicks (totalPages total) page cs ∧
    runClicks (totalPages total) page cs ≤ totalPages total := by
  refine ⟨?_, runClicks_bounds cs _ page h1 h2⟩
  unfold totalPages
  omega

/-- Witness for `pagination_invariant`: 15 rows give 2 pages and the click
sequence Next, Next, Previous stays within bounds from page 1. -/
theorem pagination_invariant_witness :
    ((15 ≤ 10 * totalPages 15 ∧ 10 * totalPages 15 < 15 + 10) ∧
      1 ≤ runClicks (totalPages 15) 1 [Click.next, Click.next, Click.prev] ∧
      runClicks (totalPages 15) 1 [Click.next, Click.next, Click.prev] ≤
        totalPages 15) :=
  pagination_invariant 15 1 [Click.next, Click.next, Click.prev]
    (by decide) (by decide) (by decide)

/-- C9: for `period ≥ 1`, `calculateMA data period` has the same length as
`data`; entry `i` is `null` for `i < period - 1` and otherwise the
arithmetic mean (sum divided by length) of the slice of the last `period`
elements ending at index `i`, a slice whose length is exactly `period`. -/
theorem calculateMA_mean (data : List ℚ) (period : ℕ) (hp : 1 ≤ period) :
    (calculateMA data period).length = data.length ∧
    ∀ (i : ℕ) (hi : i < data.length),
      ((period - 1 ≤ i →
          ((data.drop (i + 1 - period)).take period).length = period) ∧
        (calculateMA data period).get ⟨i, by simpa [calculateMA] using hi⟩ =
          (if i < period - 1 then none
           else some (((data.drop (i + 1 - period)).take period).sum /
             (((data.drop (i + 1 - period)).take period).length : ℚ)))) := by
  refine ⟨by simp [calculateMA], fun i hi => ?_⟩
  have hslice : period - 1 ≤ i →
      ((data.drop (i + 1 - period)).take period).length = period := by
    intro hge
    simp only [List.length_take, List.length_drop]
    omega
  refine ⟨hslice, ?_⟩
  by_cases hlt : i < period - 1
  · simp [calculateMA, hlt]
  · have hge : period - 1 ≤ i := Nat.le_of_not_lt hlt
    simp [calculateMA, hlt, hslice hge]

/-- Witness for `calculateMA_mean` at `data = [1, 2, 3]`, `period = 2`. -/
theorem calculateMA_mean_witness :
    (calculateMA [(1 : ℚ), 2, 3] 2).length = [(1 : ℚ), 2, 3].length ∧
    ∀ (i : ℕ) (hi : i < [(1 : ℚ), 2, 3].length),
      ((2 - 1 ≤ i →
          (([(1 : ℚ), 2, 3].drop (i + 1 - 2)).take 2).length = 2) ∧
        (calculateMA [(1 : ℚ), 2, 3] 2).get
            ⟨i, by simpa [calculateMA] using hi⟩ =
          (if i < 2 - 1 then none
           else some ((([(1 : ℚ), 2, 3].drop (i + 1 - 2)).take 2).sum /
             (((([(1 : ℚ), 2, 3].drop (i + 1 - 2)).take 2)).length : ℚ)))) :=
  calculateMA_mean [(1 : ℚ), 2, 3] 2 (by decide)

/-- C7 counterexample: an authenticated MARKET buy with non-empty amount
"1" is posted by `handleTrade`, yet neither the MARKET nor the LIMIT
payload shape has an `idempotency_key` field. -/
theorem handleTrade_no_idempotency_key_counterexample :
    (handleTrade true (some "u") "MARKET" "BTCUSDT" "buy" "1" "").isSome =
        true ∧
      "idempotency_key" ∉ tradePayloadKeys "MARKET" ∧
      "idempotency_key" ∉ tradePayloadKeys "LIMIT" := by
  refine ⟨by decide, by decide, by decide⟩

/-- C7 amended: every `/trade` payload built by `handleTrade` carries
exactly the fields `user_id`, `symbol`, `side`, `order_type`, `quantity`,
plus `price` exactly for LIMIT orders — and never an `idempotency_key`
field. -/
theorem handleTrade_payload_fields (orderType : String) :
    "user_id" ∈ tradePayloadKeys orderType ∧
      "symbol" ∈ tradePayloadKeys orderType ∧
      "side" ∈ tradePayloadKeys orderType ∧
      "order_type" ∈ tradePayloadKeys orderType ∧
      "quantity" ∈ tradePayloadKeys orderType ∧
      ("price" ∈ tradePayloadKeys orderType ↔ orderType = "LIMIT") ∧
      "idempotency_key" ∉ tradePayloadKeys orderType := by
  by_cases h : orderType = "LIMIT" <;> simp [tradePayloadKeys, h]

/-- C8 counterexample: with a valid token and the amount string "0" —
non-empty, hence truthy in JavaScript — `handleTrade` posts the trade
request with `quantity = 0`, which is not strictly positive. -/
theorem handleTrade_zero_quantity_counterexample :
    handleTrade true (some "u") "MARKET" "BTCUSDT" "buy" "0" "" =
      some { user_id := "u", symbol := "BTCUSDT", side := "BUY",
             order_type := "MARKET", quantity := some 0, price := none } ∧
      ¬ (0 : ℚ) < 0 := by
  refine ⟨by decide, by norm_num⟩

/-- C8 amended: `handleTrade` issues the HTTP `/trade` request only when
the token is present, `getUserIdFromToken` returned a user id, the amount
string is non-empty, and — for LIMIT orders — the price string is
non-empty; the posted quantity is `parseFloat(amount)`, which the guard
does not require to be positive (it may be 0, negative, or NaN). -/
theorem handleTrade_submit_guard (tokenPresent : Bool)
    (userId : Option String) (orderType symbol side amount priceStr : String)
    (p : TradePayload)
    (h : handleTrade tokenPresent userId orderType symbol side amount
      priceStr = some p) :
    tokenPresent = true ∧ (∃ uid, userId = some uid ∧ p.user_id = uid) ∧
      amount ≠ "" ∧ (orderType = "LIMIT" → priceStr ≠ "") ∧
      p.quantity = jsParseFloat amount := by
  match userId with
  | none => simp [handleTrade] at h
  | some uid =>
      simp only [handleTrade] at h
      by_cases htok : tokenPresent = false
      · simp [htok] at h
      · rw [if_neg htok] at h
        by_cases hguard : amount = "" ∨ (orderType = "LIMIT" ∧ priceStr = "")
        · rw [if_pos hguard] at h
          exact absurd h (by simp)
        · rw [if_neg hguard] at h
          push_neg at hguard
          refine ⟨by simpa using htok, ⟨uid, rfl, ?_⟩, hguard.1, ?_, ?_⟩
          · cases h
            rfl
          · intro hlim
            exact hguard.2 hlim
          · cases h
            rfl

/-- Witness for `handleTrade_submit_guard` at an authenticated MARKET buy
of amount "1". -/
theorem handleTrade_submit_guard_witness :
    true = true ∧
      (∃ uid, (some "u" : Option String) = some uid ∧
        ({ user_id := "u", symbol := "BTCUSDT", side := "BUY",
           order_type := "MARKET", quantity := some 1,
           price := none } : TradePayload).user_id = uid) ∧
      "1" ≠ "" ∧ ("MARKET" = "LIMIT" → "" ≠ "") ∧
      ({ user_id := "u", symbol := "BTCUSDT", side := "BUY",
         order_type := "MARKET", quantity := some 1,
         price := none } : TradePayload).quantity = jsParseFloat "1" :=
  handleTrade_submit_guard true (some "u") "MARKET" "BTCUSDT" "buy" "1" ""
    { user_id := "u", symbol := "BTCUSDT", side := "BUY",
      order_type := "MARKET", quantity := some 1, price := none }
    (by decide)

/-- Helper: folding BUY fills over an existing entry accumulates the
quantity and the cost-basis numerator, and (for a nonempty fill list) the
average is the numerator over the quantity. -/
theorem applyBuys_some : ∀ (l : List (ℚ × ℚ)) (e : Ledger.PortfolioEntry),
    Ledger.applyBuys l (some e) =
      some (if l = [] then e else
        ⟨e.quantity + Ledger.sumQ l, e.cost_basis_numerator + Ledger.sumQP l,
          (e.cost_basis_numerator + Ledger.sumQP l) /
            (e.quantity + Ledger.sumQ l)⟩) := by
  intro l
  induction l with
  | nil =>
      intro e
      simp [Ledger.applyBuys, Ledger.sumQ, Ledger.sumQP]
  | cons qp t ih =>
      intro e
      have hstep : Ledger.applyBuys (qp :: t) (some e) =
          Ledger.applyBuys t (some (Ledger.buyFill qp.1 qp.2 (some e))) := by
        simp [Ledger.applyBuys]
      rw [hstep, ih]
      by_cases ht : t = []
      · subst ht
        simp [Ledger.buyFill, Ledger.sumQ, Ledger.sumQP]
      · simp only [ht, if_false, List.cons_ne_nil, Ledger.buyFill,
          Ledger.sumQ, Ledger.sumQP, List.map_cons, List.sum_cons]
        refine congrArg some ?_
        refine Ledger.PortfolioEntry.mk.injEq _ _ _ _ _ _ ▸ ?_
        constructor
        · ring
        constructor
        · ring
        · rw [add_assoc, add_assoc]

/-- C1: folding any nonempty sequence of BUY fills `(qᵢ, priceᵢ)` with all
`qᵢ > 0` over an absent portfolio entry yields quantity `Σqᵢ`, cost-basis
numerator `Σqᵢ·priceᵢ`, and `avg_buy_price = Σ(qᵢ·priceᵢ) / Σqᵢ`; a
partial SELL (quantity strictly below the held quantity) keeps
`avg_buy_price` and `cost_basis_numerator` unchanged. -/
theorem buy_weighted_average_sell_preserves_basis :
    (∀ (l : List (ℚ × ℚ)), l ≠ [] → (∀ qp ∈ l, 0 < qp.1) →
      Ledger.applyBuys l none =
        some ⟨Ledger.sumQ l, Ledger.sumQP l,
          Ledger.sumQP l / Ledger.sumQ l⟩) ∧
    (∀ (e : Ledger.PortfolioEntry) (q : ℚ), q < e.quantity →
      Ledger.sellFill q e =
        some ⟨e.quantity - q, e.cost_basis_numerator, e.avg_buy_price⟩) := by
  constructor
  · intro l hne hpos
    match l with
    | [] => exact absurd rfl hne
    | (q, p) :: t =>
        have hq : 0 < q := hpos (q, p) (List.mem_cons_self _ _)
        have hfirst : Ledger.applyBuys ((q, p) :: t) none =
            Ledger.applyBuys t (some ⟨q, q * p, p⟩) := by
          simp [Ledger.applyBuys, Ledger.buyFill]
        rw [hfirst, applyBuys_some]
        by_cases ht : t = []
        · subst ht
          have hp : p = q * p / q := by
            rw [mul_comm, mul_div_assoc, div_self hq.ne', mul_one]
          simp [Ledger.sumQ, Ledger.sumQP, ← hp]
        · simp only [ht, if_false, Ledger.sumQ, Ledger.sumQP,
            List.map_cons, List.sum_cons]
  · intro e q hq
    have hne : e.quantity - q ≠ 0 := by
      intro h0
      rw [sub_eq_zero] at h0
      exact absurd h0.symm hq.ne
    simp [Ledger.sellFill, hne]

/-- Witness for `buy_weighted_average_sell_preserves_basis` at the fills
`[(1, 2), (1, 4)]` and a partial sell of 1 from a 2-unit entry. -/
theorem buy_weighted_average_witness :
    Ledger.applyBuys [((1 : ℚ), (2 : ℚ)), (1, 4)] none =
      some ⟨Ledger.sumQ [((1 : ℚ), (2 : ℚ)), (1, 4)],
        Ledger.sumQP [((1 : ℚ), (2 : ℚ)), (1, 4)],
        Ledger.sumQP [((1 : ℚ), (2 : ℚ)), (1, 4)] /
          Ledger.sumQ [((1 : ℚ), (2 : ℚ)), (1, 4)]⟩ ∧
    Ledger.sellFill 1 ⟨2, 6, 3⟩ =
      some ⟨(2 : ℚ) - 1, (6 : ℚ), (3 : ℚ)⟩ :=
  ⟨buy_weighted_average_sell_preserves_basis.1 [((1 : ℚ), (2 : ℚ)), (1, 4)]
      (by decide) (by decide),
    buy_weighted_average_sell_preserves_basis.2 ⟨2, 6, 3⟩ 1 (by norm_num)⟩

/-- Helper: one well-formed atomic ledger step keeps every present
portfolio quantity strictly positive. -/
theorem applyOp_quantity_pos (st : Ledger.LState) (o : Ledger.Op)
    (hw : Ledger.WfOp o)
    (hst : ∀ e, st.portfolio = some e → 0 < e.quantity) :
    ∀ e, ((Ledger.applyOp st o).1).portfolio = some e → 0 < e.quantity := by
  intro e he
  cases o with
  | buy q price fee =>
      by_cases hc : q * price + fee ≤ st.balance
      · simp only [Ledger.applyOp, if_pos hc] at he
        match hpf : st.portfolio with
        | none =>
            rw [hpf] at he
            simp only [Ledger.buyFill, Option.some.injEq] at he
            rw [← he]
            exact hw.1
        | some e0 =>
            rw [hpf] at he
            simp only [Ledger.buyFill, Option.some.injEq] at he
            rw [← he]
            exact add_pos (hst e0 hpf) hw.1
      · simp only [Ledger.applyOp, if_neg hc] at he
        exact hst e he
  | sell q price fee =>
      match hpf : st.portfolio with
      | none =>
          simp only [Ledger.applyOp, hpf] at he
          exact hst e (hpf ▸ he)
      | some e0 =>
          simp only [Ledger.applyOp, hpf] at he
          by_cases hc : q ≤ e0.quantity
          · rw [if_pos hc] at he
            simp only [Ledger.sellFill] at he
            by_cases h0 : e0.quantity - q = 0
            · rw [if_pos h0] at he
              exact absurd he (by simp)
            · rw [if_neg h0] at he
              simp only [Option.some.injEq] at he
              rw [← he]
              have : 0 ≤ e0.quantity - q := sub_nonneg.mpr hc
              exact lt_of_le_of_ne this (Ne.symm h0)
          · rw [if_neg hc] at he
            exact hst e (hpf ▸ he)
  | deposit a =>
      simp only [Ledger.applyOp] at he
      exact hst e he
  | withdraw a =>
      by_cases hc : a ≤ st.balance
      · simp only [Ledger.applyOp, if_pos hc] at he
        exact hst e he
      · simp only [Ledger.applyOp, if_neg hc] at he
        exact hst e he

/-- Helper: running any well-formed operation sequence keeps every present
portfolio quantity strictly positive. -/
theorem run_quantity_pos : ∀ (ops : List Ledger.Op) (st : Ledger.LState),
    (∀ o ∈ ops, Ledger.WfOp o) →
    (∀ e, st.portfolio = some e → 0 < e.quantity) →
    ∀ e, (Ledger.run st ops).portfolio = some e → 0 < e.quantity := by
  intro ops
  induction ops with
  | nil =>
      intro st _ hst
      simpa [Ledger.run] using hst
  | cons o t ih =>
      intro st hw hst
      have hstep := applyOp_quantity_pos st o (hw o (List.mem_cons_self _ _)) hst
      have hrun : Ledger.run st (o :: t) =
          Ledger.run (Ledger.applyOp st o).1 t := by
        simp [Ledger.run]
      rw [hrun]
      exact ih _ (fun o' ho' => hw o' (List.mem_cons_of_mem _ ho')) hstep

/-- C2: a SELL of quantity `q` strictly above the held quantity is
rejected and returns the ledger state exactly unchanged (portfolio and
credits untouched); in every state reachable by well-formed operations
from an initial state, any present portfolio entry has quantity `≥ 0`
(indeed `> 0`); and a successful SELL of exactly the held quantity deletes
the entry. -/
theorem sell_guard_and_quantity_nonneg :
    (∀ (st : Ledger.LState) (q price fee : ℚ) (e : Ledger.PortfolioEntry),
      st.portfolio = some e → e.quantity < q →
      Ledger.applyOp st (Ledger.Op.sell q price fee) = (st, false)) ∧
    (∀ (b : ℚ) (ops : List Ledger.Op), (∀ o ∈ ops, Ledger.WfOp o) →
      ∀ e, (Ledger.run (Ledger.initState b) ops).portfolio = some e →
        0 ≤ e.quantity) ∧
    (∀ (st : Ledger.LState) (q price fee : ℚ) (e : Ledger.PortfolioEntry),
      st.portfolio = some e → e.quantity = q →
      ((Ledger.applyOp st (Ledger.Op.sell q price fee)).1).portfolio =
        none) := by
  refine ⟨?_, ?_, ?_⟩
  · intro st q price fee e he hlt
    simp [Ledger.applyOp, he, not_le.mpr hlt]
  · intro b ops hw e he
    have hinit : ∀ e0, (Ledger.initState b).portfolio = some e0 →
        0 < e0.quantity := by
      intro e0 h0
      simp [Ledger.initState] at h0
    exact le_of_lt (run_quantity_pos ops (Ledger.initState b) hw hinit e he)
  · intro st q price fee e he hq
    simp [Ledger.applyOp, he, hq, Ledger.sellFill]

/-- Witness for `sell_guard_and_quantity_nonneg`: an oversized sell from a
one-unit entry is rejected unchanged, a buy-then-sell run keeps quantity
nonnegative, and selling the full unit deletes the entry. -/
theorem sell_guard_witness :
    Ledger.applyOp ⟨some ⟨1, 5, 5⟩, 0, []⟩ (Ledger.Op.sell 2 5 0) =
        (⟨some ⟨1, 5, 5⟩, 0, []⟩, false) ∧
      (∀ e, (Ledger.run (Ledger.initState 10)
          [Ledger.Op.buy 1 5 0, Ledger.Op.sell 1 5 0]).portfolio = some e →
        0 ≤ e.quantity) ∧
      ((Ledger.applyOp ⟨some ⟨1, 5, 5⟩, 0, []⟩
          (Ledger.Op.sell 1 5 0)).1).portfolio = none :=
  ⟨sell_guard_and_quantity_nonneg.1 ⟨some ⟨1, 5, 5⟩, 0, []⟩ 2 5 0 ⟨1, 5, 5⟩
      rfl (by norm_num),
    sell_guard_and_quantity_nonneg.2.1 10
      [Ledger.Op.buy 1 5 0, Ledger.Op.sell 1 5 0] (by
        intro o ho
        simp only [List.mem_cons, List.mem_singleton] at ho
        rcases ho with h | h | h
        · rw [h]; exact ⟨by norm_num, by norm_num, le_refl 0, by norm_num⟩
        · rw [h]; exact ⟨by norm_num, by norm_num, le_refl 0, by norm_num⟩
        · cases h),
    sell_guard_and_quantity_nonneg.2.2 ⟨some ⟨1, 5, 5⟩, 0, []⟩ 1 5 0
      ⟨1, 5, 5⟩ rfl rfl⟩

/-- Helper: one well-formed atomic ledger step keeps the credits balance
nonnegative. -/
theorem applyOp_balance_nonneg (st : Ledger.LState) (o : Ledger.Op)
    (hw : Ledger.WfOp o) (hb : 0 ≤ st.balance) :
    0 ≤ ((Ledger.applyOp st o).1).balance := by
  cases o with
  | buy q price fee =>
      by_cases hc : q * price + fee ≤ st.balance
      · simp only [Ledger.applyOp, if_pos hc]
        exact sub_nonneg.mpr hc
      · simpa [Ledger.applyOp, if_neg hc] using hb
  | sell q price fee =>
      match hpf : st.portfolio with
      | none => simpa [Ledger.applyOp, hpf] using hb
      | some e0 =>
          by_cases hc : q ≤ e0.quantity
          · simp only [Ledger.applyOp, hpf, if_pos hc]
            have hfp : 0 ≤ q * price - fee := sub_nonneg.mpr hw.2.2.2
            linarith
          · simpa [Ledger.applyOp, hpf, if_neg hc] using hb
  | deposit a =>
      simp only [Ledger.applyOp]
      have : 0 ≤ a := hw
      linarith
  | withdraw a =>
      by_cases hc : a ≤ st.balance
      · simp only [Ledger.applyOp, if_pos hc]
        exact sub_nonneg.mpr hc
      · simpa [Ledger.applyOp, if_neg hc] using hb

/-- Helper: running any well-formed operation sequence keeps the credits
balance nonnegative. -/
theorem run_balance_nonneg : ∀ (ops : List Ledger.Op) (st : Ledger.LState),
    (∀ o ∈ ops, Ledger.WfOp o) → 0 ≤ st.balance →
    0 ≤ (Ledger.run st ops).balance := by
  intro ops
  induction ops with
  | nil =>
      intro st _ hb
      simpa [Ledger.run] using hb
  | cons o t ih =>
      intro st hw hb
      have hrun : Ledger.run st (o :: t) =
          Ledger.run (Ledger.applyOp st o).1 t := by
        simp [Ledger.run]
      rw [hrun]
      exact ih _ (fun o' ho' => hw o' (List.mem_cons_of_mem _ ho'))
        (applyOp_balance_nonneg st o (hw o (List.mem_cons_self _ _)) hb)

/-- C4: starting from a nonnegative balance, every state reachable by
well-formed operations has `CreditsAccount.balance ≥ 0` (each operation is
one atomic conditional mutation, so these are all the observable states);
and a BUY whose required funds `q*price + fee` exceed the current balance
is rejected as a whole, with the ledger state — credits and portfolio —
exactly unchanged. -/
theorem balance_nonneg_and_buy_guard :
    (∀ (b : ℚ) (ops : List Ledger.Op), 0 ≤ b →
      (∀ o ∈ ops, Ledger.WfOp o) →
      0 ≤ (Ledger.run (Ledger.initState b) ops).balance) ∧
    (∀ (st : Ledger.LState) (q price fee : ℚ),
      st.balance < q * price + fee →
      Ledger.applyOp st (Ledger.Op.buy q price fee) = (st, false)) := by
  constructor
  · intro b ops hb hw
    exact run_balance_nonneg ops (Ledger.initState b) hw hb
  · intro st q price fee hlt
    simp [Ledger.applyOp, not_le.mpr hlt]

/-- Witness for `balance_nonneg_and_buy_guard`: a deposit-buy-withdraw run
from balance 1 stays nonnegative, and a buy needing 6 credits against a
balance of 5 is rejected unchanged. -/
theorem balance_nonneg_witness :
    0 ≤ (Ledger.run (Ledger.initState 1)
        [Ledger.Op.deposit 4, Ledger.Op.buy 1 2 1,
          Ledger.Op.withdraw 2]).balance ∧
      Ledger.applyOp ⟨none, 5, []⟩ (Ledger.Op.buy 2 3 0) =
        (⟨none, 5, []⟩, false) :=
  ⟨balance_nonneg_and_buy_guard.1 1
      [Ledger.Op.deposit 4, Ledger.Op.buy 1 2 1, Ledger.Op.withdraw 2]
      (by norm_num) (by
        intro o ho
        simp only [List.mem_cons, List.mem_singleton] at ho
        rcases ho with h | h | h | h
        · rw [h]; exact (by norm_num : (0 : ℚ) ≤ 4)
        · rw [h]
          exact ⟨by norm_num, by norm_num, by norm_num, by norm_num⟩
        · rw [h]; exact (by norm_num : (0 : ℚ) ≤ 2)
        · cases h),
    balance_nonneg_and_buy_guard.2 ⟨none, 5, []⟩ 2 3 0 (by norm_num)⟩

/-- Helper: checked replay of a history extended by one record. -/
theorem replayCheck_append (r : Ledger.HRec) :
    ∀ (h : List Ledger.HRec) (b : ℚ),
    Ledger.replayCheck b (h ++ [r]) =
      (Ledger.replayCheck b h).bind (fun x =>
        if r.balance_after = Ledger.applyRec x r then
          some (Ledger.applyRec x r)
        else none) := by
  intro h
  induction h with
  | nil =>
      intro b
      simp [Ledger.replayCheck]
  | cons r0 t ih =>
      intro b
      simp only [List.cons_append, Ledger.replayCheck]
      by_cases h0 : r0.balance_after = Ledger.applyRec b r0
      · rw [if_pos h0, if_pos h0]
        exact ih (Ledger.applyRec b r0)
      · rw [if_neg h0, if_neg h0]
        rfl

/-- Helper: one atomic ledger step preserves checked replayability of the
history against the live balance. -/
theorem applyOp_replay (st : Ledger.LState) (o : Ledger.Op) (b : ℚ)
    (h : Ledger.replayCheck b st.history = some st.balance) :
    Ledger.replayCheck b (((Ledger.applyOp st o).1).history) =
      some (((Ledger.applyOp st o).1).balance) := by
  cases o with
  | buy q price fee =>
      by_cases hc : q * price + fee ≤ st.balance
      · simp only [Ledger.applyOp, if_pos hc, replayCheck_append, h,
          Option.bind_some, Ledger.applyRec]
        simp
      · simpa [Ledger.applyOp, if_neg hc] using h
  | sell q price fee =>
      match hpf : st.portfolio with
      | none => simpa [Ledger.applyOp, hpf] using h
      | some e0 =>
          by_cases hc : q ≤ e0.quantity
          · simp only [Ledger.applyOp, hpf, if_pos hc, replayCheck_append,
              h, Option.bind_some, Ledger.applyRec]
            simp
          · simpa [Ledger.applyOp, hpf, if_neg hc] using h
  | deposit a =>
      simp only [Ledger.applyOp, replayCheck_append, h, Option.bind_some,
        Ledger.applyRec]
      simp
  | withdraw a =>
      by_cases hc : a ≤ st.balance
      · simp only [Ledger.applyOp, if_pos hc, replayCheck_append, h,
          Option.bind_some, Ledger.applyRec]
        simp
      · simpa [Ledger.applyOp, if_neg hc] using h

/-- Helper: running any operation sequence preserves checked replayability
of the history against the live balance. -/
theorem run_replay : ∀ (ops : List Ledger.Op) (st : Ledger.LState) (b : ℚ),
    Ledger.replayCheck b st.history = some st.balance →
    Ledger.replayCheck b ((Ledger.run st ops).history) =
      some ((Ledger.run st ops).balance) := by
  intro ops
  induction ops with
  | nil =>
      intro st b h
      simpa [Ledger.run] using h
  | cons o t ih =>
      intro st b h
      have hrun : Ledger.run st (o :: t) =
          Ledger.run (Ledger.applyOp st o).1 t := by
        simp [Ledger.run]
      rw [hrun]
      exact ih _ b (applyOp_replay st o b h)

/-- C5: for every starting balance and every operation sequence, replaying
the append-only CreditsHistory in order from the starting balance
validates each record's `balance_after` (the checked replay never fails)
and ends exactly at the live CreditsAccount balance; as the sequence is
arbitrary, this holds at every point of any run. -/
theorem history_replay_matches_balance (b : ℚ) (ops : List Ledger.Op) :
    Ledger.replayCheck b ((Ledger.run (Ledger.initState b) ops).history) =
      some ((Ledger.run (Ledger.initState b) ops).balance) :=
  run_replay ops (Ledger.initState b) b (by
    simp [Ledger.initState, Ledger.replayCheck])

/-- Helper: once a key is registered in the guard table, `process` returns
the stored result and performs no mutation at all. -/
theorem process_completed (key : String) (op : Ledger.Op) (st : Worker.WState)
    (r : Bool) (h : Worker.lookupKey key st.completed = some r) :
    Worker.process key op st = (st, r) := by
  simp [Worker.process, h]

/-- Helper: re-submitting any number of times after the key is registered
leaves the state unchanged. -/
theorem submitN_completed (key : String) (op : Ledger.Op) :
    ∀ (n : ℕ) (st : Worker.WState) (r : Bool),
    Worker.lookupKey key st.completed = some r →
    Worker.submitN key op n st = st := by
  intro n
  induction n with
  | zero =>
      intro st r _
      rfl
  | succ m ih =>
      intro st r h
      have hp := process_completed key op st r h
      simp only [Worker.submitN, hp]
      exact ih st r h

/-- Helper: after a first processing of a fresh key, the key is registered
with the returned result. -/
theorem process_registers (key : String) (op : Ledger.Op)
    (st : Worker.WState) (h : Worker.lookupKey key st.completed = none) :
    Worker.lookupKey key ((Worker.process key op st).1).completed =
      some (Worker.process key op st).2 := by
  simp [Worker.process, h, Worker.lookupKey]

/-- C3: for a fresh idempotency key, submitting the same trade request
`n ≥ 1` times produces the same system state as submitting it once:
exactly one Order is created for the key, a Transaction and a
CreditsHistory audit record for it exist exactly when (and exactly once
when) the order was FILLED, and a re-delivery after completion returns the
stored result with the whole state — ledger included — unchanged. -/
theorem idempotency_guard (key : String) (op : Ledger.Op)
    (st0 : Worker.WState) (hf : Worker.FreshKey key st0) (n : ℕ)
    (hn : 1 ≤ n) :
    Worker.submitN key op n st0 = (Worker.process key op st0).1 ∧
      ((Worker.process key op st0).1).orderKeys.count key = 1 ∧
      (((Worker.process key op st0).2 = true →
          ((Worker.process key op st0).1).txKeys.count key = 1 ∧
          ((Worker.process key op st0).1).histKeys.count key = 1) ∧
        ((Worker.process key op st0).2 = false →
          ((Worker.process key op st0).1).txKeys.count key = 0 ∧
          ((Worker.process key op st0).1).histKeys.count key = 0)) ∧
      Worker.process key op (Worker.process key op st0).1 =
        ((Worker.process key op st0).1, (Worker.process key op st0).2) := by
  obtain ⟨hck, hok, htk, hhk⟩ := hf
  have hreg := process_registers key op st0 hck
  have hshape : Worker.process key op st0 =
      (⟨(key, (Ledger.applyOp st0.ledger op).2) :: st0.completed,
        key :: st0.orderKeys,
        if (Ledger.applyOp st0.ledger op).2 then key :: st0.txKeys
          else st0.txKeys,
        if (Ledger.applyOp st0.ledger op).2 then key :: st0.histKeys
          else st0.histKeys,
        (Ledger.applyOp st0.ledger op).1⟩,
       (Ledger.applyOp st0.ledger op).2) := by
    simp [Worker.process, hck]
  refine ⟨?_, ?_, ⟨?_, ?_⟩, ?_⟩
  · match n, hn with
    | m + 1, _ =>
        have : Worker.submitN key op (m + 1) st0 =
            Worker.submitN key op m (Worker.process key op st0).1 := rfl
        rw [this]
        exact submitN_completed key op m _ _ hreg
  · rw [hshape]
    simp [List.count_cons_self, List.count_eq_zero.mpr hok]
  · intro hfill
    rw [hshape] at hfill ⊢
    simp only at hfill
    simp [hfill, List.count_cons_self, List.count_eq_zero.mpr htk,
      List.count_eq_zero.mpr hhk]
  · intro hrej
    rw [hshape] at hrej ⊢
    simp only at hrej
    simp [hrej, List.count_eq_zero.mpr htk, List.count_eq_zero.mpr hhk]
  · exact process_completed key op _ _ hreg

/-- Witness for `idempotency_guard`: depositing 5 under key "k" three
times from an empty system registers one order, one transaction and one
history record, and the third delivery returns the stored result. -/
theorem idempotency_guard_witness :
    Worker.submitN "k" (Ledger.Op.deposit 5) 3
        ⟨[], [], [], [], Ledger.initState 0⟩ =
      (Worker.process "k" (Ledger.Op.deposit 5)
        ⟨[], [], [], [], Ledger.initState 0⟩).1 ∧
      ((Worker.process "k" (Ledger.Op.deposit 5)
        ⟨[], [], [], [], Ledger.initState 0⟩).1).orderKeys.count "k" = 1 ∧
      (((Worker.process "k" (Ledger.Op.deposit 5)
            ⟨[], [], [], [], Ledger.initState 0⟩).2 = true →
          ((Worker.process "k" (Ledger.Op.deposit 5)
            ⟨[], [], [], [], Ledger.initState 0⟩).1).txKeys.count "k" = 1 ∧
          ((Worker.process "k" (Ledger.Op.deposit 5)
            ⟨[], [], [], [], Ledger.initState 0⟩).1).histKeys.count "k" =
            1) ∧
        ((Worker.process "k" (Ledger.Op.deposit 5)
            ⟨[], [], [], [], Ledger.initState 0⟩).2 = false →
          ((Worker.process "k" (Ledger.Op.deposit 5)
            ⟨[], [], [], [], Ledger.initState 0⟩).1).txKeys.count "k" = 0 ∧
          ((Worker.process "k" (Ledger.Op.deposit 5)
            ⟨[], [], [], [], Ledger.initState 0⟩).1).histKeys.count "k" =
            0)) ∧
      Worker.process "k" (Ledger.Op.deposit 5)
          (Worker.process "k" (Ledger.Op.deposit 5)
            ⟨[], [], [], [], Ledger.initState 0⟩).1 =
        ((Worker.process "k" (Ledger.Op.deposit 5)
            ⟨[], [], [], [], Ledger.initState 0⟩).1,
          (Worker.process "k" (Ledger.Op.deposit 5)
            ⟨[], [], [], [], Ledger.initState 0⟩).2) :=
  idempotency_guard "k" (Ledger.Op.deposit 5)
    ⟨[], [], [], [], Ledger.initState 0⟩
    ⟨rfl, by simp, by simp, by simp⟩ 3 (by norm_num)

/-- C6 counterexample: one worker processing a BUY of quantity 1 at price
1 (fee 0) against a zero balance is rejected: the final portfolio has no
entry — so its quantity is not 1 — and the balance does not decrease by
`1·(P+fee)`; the claim as stated fails without a sufficient-funds
precondition. -/
theorem concurrent_buys_counterexample :
    Ledger.run (Ledger.initState 0) [Ledger.Op.buy 1 1 0] =
        Ledger.initState 0 ∧
      (Ledger.initState 0).portfolio = none ∧
      (Ledger.initState 0).balance = 0 := by
  refine ⟨?_, rfl, rfl⟩
  norm_num [Ledger.run, Ledger.applyOp, Ledger.initState]

/-- Helper: running buys of one unit at price `P` with fee `fee` from a
state holding an entry, with funds for all of them, adds one unit per buy
and debits `P + fee` per buy. -/
theorem run_unit_buys (P fee : ℚ) (hP : 0 ≤ P) (hfee : 0 ≤ fee) :
    ∀ (l : List Ledger.Op), (∀ o ∈ l, o = Ledger.Op.buy 1 P fee) →
    ∀ (st : Ledger.LState) (e : Ledger.PortfolioEntry),
    st.portfolio = some e → (l.length : ℚ) * (P + fee) ≤ st.balance →
    ∃ e2, (Ledger.run st l).portfolio = some e2 ∧
      e2.quantity = e.quantity + l.length ∧
      (Ledger.run st l).balance = st.balance - l.length * (P + fee) := by
  intro l
  induction l with
  | nil =>
      intro _ st e hpf _
      refine ⟨e, ?_, by simp, by simp [Ledger.run]⟩
      simpa [Ledger.run] using hpf
  | cons o t ih =>
      intro hall st e hpf hb
      have ho : o = Ledger.Op.buy 1 P fee := hall o (List.mem_cons_self _ _)
      have hlen : ((o :: t).length : ℚ) = (t.length : ℚ) + 1 := by
        push_cast [List.length_cons]
        ring
      have htl : (0 : ℚ) ≤ (t.length : ℚ) * (P + fee) := by
        have h1 : (0 : ℚ) ≤ (t.length : ℚ) := Nat.cast_nonneg _
        have h2 : (0 : ℚ) ≤ P + fee := add_nonneg hP hfee
        exact mul_nonneg h1 h2
      have hcost : P + fee ≤ st.balance := by
        rw [hlen] at hb
        nlinarith
      have hstep : Ledger.applyOp st o =
          (⟨some (Ledger.buyFill 1 P st.portfolio),
            st.balance - (P + fee),
            st.history ++ [⟨Ledger.HType.tradeDebit, P + fee,
              st.balance - (P + fee)⟩]⟩, true) := by
        rw [ho]
        simp [Ledger.applyOp, hcost]
      have hrun : Ledger.run st (o :: t) =
          Ledger.run (Ledger.applyOp st o).1 t := by
        simp [Ledger.run]
      have hfill : Ledger.buyFill 1 P st.portfolio =
          ⟨e.quantity + 1, e.cost_basis_numerator + P,
            (e.cost_basis_numerator + P) / (e.quantity + 1)⟩ := by
        rw [hpf]
        simp [Ledger.buyFill]
      have hb2 : ((t.length : ℚ)) * (P + fee) ≤
          st.balance - (P + fee) := by
        rw [hlen] at hb
        nlinarith
      obtain ⟨e2, he2, hq2, hbal2⟩ := ih
        (fun o' ho' => hall o' (List.mem_cons_of_mem _ ho'))
        (Ledger.applyOp st o).1
        ⟨e.quantity + 1, e.cost_basis_numerator + P,
          (e.cost_basis_numerator + P) / (e.quantity + 1)⟩
        (by rw [hstep]; simpa using hfill) (by rw [hstep]; simpa using hb2)
      refine ⟨e2, by rw [hrun]; exact he2, ?_, ?_⟩
      · rw [hq2]
        push_cast [List.length_cons]
        ring
      · rw [hrun, hbal2, hstep]
        push_cast [List.length_cons]
        ring_nf

/-- C6 amended: if `N ≥ 1` workers each process a BUY of quantity 1 at
price `P ≥ 0` with fee `fee ≥ 0` for the same user and symbol — each BUY
being one atomic conditional mutation, an interleaving is any sequence of
the `N` operations — and the initial balance covers all of them
(`b ≥ N·(P+fee)`), then under every interleaving the final portfolio
quantity is exactly `N` (no lost updates) and the balance decreases by
exactly `N·(P+fee)`.  Without the funds precondition the claim fails
(`concurrent_buys_counterexample`). -/
theorem concurrent_unit_buys (N : ℕ) (P fee b : ℚ) (ops : List Ledger.Op)
    (hops : ∀ o ∈ ops, o = Ledger.Op.buy 1 P fee) (hlen : ops.length = N)
    (hN : 1 ≤ N) (hP : 0 ≤ P) (hfee : 0 ≤ fee)
    (hb : (N : ℚ) * (P + fee) ≤ b) :
    (∃ e, (Ledger.run (Ledger.initState b) ops).portfolio = some e ∧
      e.quantity = (N : ℚ)) ∧
    (Ledger.run (Ledger.initState b) ops).balance =
      b - (N : ℚ) * (P + fee) := by
  match ops, hlen with
  | [], hlen =>
      simp only [List.length_nil] at hlen
      omega
  | o :: t, hlen =>
      have ho : o = Ledger.Op.buy 1 P fee := hops o (List.mem_cons_self _ _)
      have hNt : (N : ℚ) = (t.length : ℚ) + 1 := by
        rw [← hlen]
        push_cast [List.length_cons]
        ring
      have htl : (0 : ℚ) ≤ (t.length : ℚ) * (P + fee) :=
        mul_nonneg (Nat.cast_nonneg _) (add_nonneg hP hfee)
      have hcost : P + fee ≤ b := by
        rw [hNt] at hb
        nlinarith
      have hstep : Ledger.applyOp (Ledger.initState b) o =
          (⟨some ⟨1, P, P⟩, b - (P + fee),
            [⟨Ledger.HType.tradeDebit, P + fee,
              b - (P + fee)⟩]⟩, true) := by
        rw [ho]
        simp [Ledger.applyOp, Ledger.initState, hcost, Ledger.buyFill]
      have hrun : Ledger.run (Ledger.initState b) (o :: t) =
          Ledger.run (Ledger.applyOp (Ledger.initState b) o).1 t := by
        simp [Ledger.run]
      have hb2 : ((t.length : ℚ)) * (P + fee) ≤ b - (P + fee) := by
        rw [hNt] at hb
        nlinarith
      obtain ⟨e2, he2, hq2, hbal2⟩ := run_unit_buys P fee hP hfee t
        (fun o' ho' => hops o' (List.mem_cons_of_mem _ ho'))
        (Ledger.applyOp (Ledger.initState b) o).1 ⟨1, P, P⟩
        (by rw [hstep]) (by rw [hstep]; exact hb2)
      refine ⟨⟨e2, by rw [hrun]; exact he2, ?_⟩, ?_⟩
      · rw [hq2, hNt]
        ring
      · rw [hrun, hbal2, hstep]
        simp only
        rw [hNt]
        ring

/-- Witness for `concurrent_unit_buys`: two unit buys at price 1, fee 0,
from balance 2 end with quantity 2 and balance 0. -/
theorem concurrent_unit_buys_witness :
    (∃ e, (Ledger.run (Ledger.initState 2)
        [Ledger.Op.buy 1 1 0, Ledger.Op.buy 1 1 0]).portfolio = some e ∧
      e.quantity = ((2 : ℕ) : ℚ)) ∧
    (Ledger.run (Ledger.initState 2)
        [Ledger.Op.buy 1 1 0, Ledger.Op.buy 1 1 0]).balance =
      2 - ((2 : ℕ) : ℚ) * (1 + 0) :=
  concurrent_unit_buys 2 1 0 2 [Ledger.Op.buy 1 1 0, Ledger.Op.buy 1 1 0]
    (by
      intro o ho
      simp only [List.mem_cons, List.mem_singleton] at ho
      rcases ho with h | h | h
      · exact h
      · exact h
      · cases h)
    rfl (by norm_num) (by norm_num) (by norm_num) (by norm_num)

end CryptoCortex
